import Mathlib

/-!
Verification development for the multimodal-molecules repository.

The repository consists of two Python modules:
  * `multimodal_molecules/data.py` — the condition evaluator and dataset
    assembler (`get_dataset`);
  * `multimodal_molecules/models.py` — the modality-combination enumerator
    (`get_all_combinations`), the deterministic train/test split cache
    (`Results.train_test_indexes`), the experiment runner
    (`Results.run_experiments`) and the broken helper `get_split`.

The definitions below are a shallow embedding of those functions: Python
dictionaries become association lists with in-place-update semantics, numpy
integer/rational arithmetic becomes `Nat`/`ℚ`, fallible operations return
`Except`/`Option`.  External collaborators (numpy's generator, sklearn) are
modelled only through the contracts the repository relies on, as noted at
their definitions.
-/

/-- Python-level error conditions that the embedded code can raise. -/
inductive PyErr
  | valueError
  | keyError
  | zeroDivisionError
  | assertionError
deriving DecidableEq, Repr

/-- Python dict assignment `d[k] = v`: if the key is present its value is
overwritten in place (insertion order kept), otherwise the pair is appended. -/
def dictInsert {α : Type} : List (String × α) → String → α → List (String × α)
  | [], k, v => [(k, v)]
  | (k', v') :: rest, k, v =>
      if k' = k then (k, v) :: rest else (k', v') :: dictInsert rest k v

/-- Python dict lookup `d[k]`, as an `Option`. -/
def dlookup {α : Type} : List (String × α) → String → Option α
  | [], _ => none
  | (k', v') :: rest, k => if k' = k then some v' else dlookup rest k

/-- Whether `pat` occurs as a contiguous substring of `s`; embeds Python's
`pat in s` test on strings. -/
def listIsInfix (pat : List Char) : List Char → Bool
  | [] => pat.isEmpty
  | c :: rest => pat.isPrefixOf (c :: rest) || listIsInfix pat rest

/-- The test `"XANES" in cc` used throughout the source. -/
def containsXANES (s : String) : Bool := listIsInfix "XANES".data s.data

/-- Lexicographic code-point comparison of character lists: how Python's `<`
compares strings. -/
def lexLtB : List Char → List Char → Bool
  | [], [] => false
  | [], _ :: _ => true
  | _ :: _, [] => false
  | a :: as', b :: bs' =>
      if a.toNat < b.toNat then true
      else if b.toNat < a.toNat then false
      else lexLtB as' bs'

/-- Python string comparison `a < b` (code-point lexicographic). -/
def strLtB (a b : String) : Bool := lexLtB a.data b.data

/-- Insert `x` into a list, before the first element `y` with `le x y`. -/
def insertByLe {α : Type} (le : α → α → Bool) (x : α) : List α → List α
  | [] => [x]
  | y :: ys => if le x y then x :: y :: ys else y :: insertByLe le x ys

/-- Stable insertion sort by a boolean `le`; embeds Python's `sorted`. -/
def sortByLe {α : Type} (le : α → α → Bool) : List α → List α
  | [] => []
  | x :: xs => insertByLe le x (sortByLe le xs)

/-- Split a character list at every occurrence of `sep`; Python's
`s.split(sep)` for a one-character separator (`"".split(sep)` is `[""]`). -/
def splitOnChar (sep : Char) : List Char → List (List Char)
  | [] => [[]]
  | c :: rest =>
      if c = sep then [] :: splitOnChar sep rest
      else
        match splitOnChar sep rest with
        | [] => [[c]]
        | h :: t => (c :: h) :: t

/-- Python `s.split(sep)` for a one-character separator. -/
def strSplitOn (sep : Char) (s : String) : List String :=
  (splitOnChar sep s.data).map String.mk

/-- Python `sep.join(parts)`. -/
def strJoin (sep : String) : List String → String
  | [] => ""
  | [x] => x
  | x :: y :: rest => x ++ sep ++ strJoin sep (y :: rest)

/-- Python `s.replace(a, b)` for one-character `a` and `b`. -/
def replaceChar (a b : Char) (s : String) : String :=
  String.mk (s.data.map (fun c => if c = a then b else c))

/-! ## data.py: the condition evaluator and dataset assembler -/

/-- `xx.split("-")[0]` (data.py line 61): the characters of `xx` before its
first `'-'` — the base element name of a spectral-presence tag. -/
def ccBase (s : String) : String := String.mk (s.data.takeWhile (fun ch => ch ≠ '-'))

/-- data.py line 61: the complementary conditions, one for every token that
contains `"XANES"`, each the part of the token before the first `'-'`. -/
def ccConditions (conds : List String) : List String :=
  (conds.filter (fun xx => containsXANES xx)).map ccBase

/-- data.py lines 57-62: the working token list of `get_dataset` — the
comma-split tokens with the complementary conditions appended at the end,
built before any filter is applied. -/
def workingTokens (conditions : String) : List String :=
  let conds := strSplitOn ',' conditions
  conds ++ ccConditions conds

/-- The sample index table: named columns over numeric (0/1 indicator) rows.
Each row is aligned with `cols`; the identity (SMILES) column is not needed
by the properties below and is left out of the embedding. -/
structure Table where
  cols : List String
  rows : List (List Nat)
deriving DecidableEq, Repr

/-- One filtering step of `get_dataset` (data.py lines 72-76): a token headed
by `'!'` keeps the rows where the named column equals 0, any other token
keeps the rows where the named column equals 1.  `none` embeds the
KeyError on an unknown column and the IndexError on an empty token. -/
def applyToken (t : Table) (tok : String) : Option Table :=
  match tok.data with
  | [] => none
  | c :: restChars =>
      if c = '!' then
        match t.cols.findIdx? (fun cc => cc == String.mk restChars) with
        | none => none
        | some j => some ⟨t.cols, t.rows.filter (fun r => r.getD j 0 == 0)⟩
      else
        match t.cols.findIdx? (fun cc => cc == tok) with
        | none => none
        | some j => some ⟨t.cols, t.rows.filter (fun r => r.getD j 0 == 1)⟩

/-- data.py lines 72-76: apply every token in order (intersection of filters). -/
def applyConditions (t : Table) (toks : List String) : Option Table :=
  toks.foldlM applyToken t

/-- The filtered index of `get_dataset`: the complementary tokens are appended
to the condition list before any filter runs. -/
def filteredIndex (conditions : String) (t : Table) : Option Table :=
  applyConditions t (workingTokens conditions)

/-- The values of column `j` down the rows of a table (a pandas column as a
1D array, `fg_index[fg].to_numpy()`). -/
def colValues (t : Table) (j : Nat) : List Nat :=
  t.rows.map (fun r => r.getD j 0)

/-- data.py lines 92-97: the functional-group label mapping of the assembled
dataset.  Every column from position 7 on is kept, under its name and with
its full column array, exactly when the column sum is positive. -/
def buildFG (t : Table) : List (String × List Nat) :=
  ((List.range t.cols.length).drop 7).filterMap (fun j =>
    let dat := colValues t j
    if 0 < dat.sum then some (t.cols.getD j "", dat) else none)

/-! ## models.py: combination enumerator -/

/-- `itertools.combinations(l, k)`: all length-`k` subsequences of `l`, in the
order itertools emits them (lexicographic by position). -/
def combosOfLen {α : Type} : Nat → List α → List (List α)
  | 0, _ => [[]]
  | _ + 1, [] => []
  | k + 1, x :: xs =>
      (combosOfLen k xs).map (fun c => x :: c) ++ combosOfLen (k + 1) xs

/-- models.py lines 34-39: for `nn` in `range(n)`, extend the output with the
combinations of `range(n)` of size `nn + 1`. -/
def get_all_combinations (n : Nat) : List (List Nat) :=
  ((List.range n).map (fun nn => combosOfLen (nn + 1) (List.range n))).flatten

/-- The documented output order of the combination enumerator: first by
combination length ascending, then lexicographically by position tuple
within each length. -/
def comboOrder (a b : List Nat) : Prop :=
  a.length < b.length ∨ (a.length = b.length ∧ List.Lex (· < ·) a b)

/-! ## models.py: deterministic split cache -/

/-- A 64-bit linear-congruential step, standing in for numpy's generator
state transition (the exact generator is external to the repository; every
property proved below depends only on determinism of the state sequence). -/
def lcg (s : Nat) : Nat := (6364136223846793005 * s + 1442695040888963407) % 2 ^ 64

/-- Draw `k` elements from `pool` without replacement, consuming generator
states derived from `s` (a partial Fisher-Yates selection). -/
def drawGo : Nat → List Nat → Nat → List Nat
  | 0, _, _ => []
  | k + 1, pool, s =>
      if pool.isEmpty then []
      else
        let s' := lcg s
        let idx := s' % pool.length
        pool.getD idx 0 :: drawGo k (pool.eraseIdx idx) s'

/-- `np.random.choice(N, size=size, replace=False)` run at generator state
`s`.  numpy is an external collaborator: it is modelled as a deterministic
seeded draw realizing the documented contract the caller relies on —
`size` distinct positions from `[0, N)`, a function of the state alone. -/
def npChoiceNoReplace (s N size : Nat) : List Nat := drawGo size (List.range N) s

/-- Python `int()` applied to a rational: truncation toward zero. -/
def pyInt (q : ℚ) : ℤ := if q < 0 then -⌊-q⌋ else ⌊q⌋

/-- models.py lines 148-159, `Results.train_test_indexes`.  `g` is the
incoming global numpy generator state, overwritten by
`np.random.seed(self._random_state)` before anything is drawn.  The guards
embed numpy's rejection of a negative or too-large sample size and the two
`assert` statements of the source; `set(range(N)) - set(test)` followed by
`sorted` is embedded as the (already ascending) filtered range. -/
def train_test_indexes (g : Nat) (dataSize : Nat) (randomState : Nat)
    (testSize : ℚ) : Except PyErr (List Nat × List Nat) :=
  let _ := g
  let s := randomState
  let N := dataSize
  let size := pyInt (testSize * (N : ℚ))
  if size < 0 then .error .valueError
  else if (N : ℤ) < size then .error .valueError
  else
    let testIndexes := npChoiceNoReplace s N size.toNat
    if ¬ testIndexes.Nodup then .error .assertionError
    else
      let trainSet := (List.range N).filter (fun i => decide (i ∉ testIndexes))
      if ¬ testIndexes.all (fun i => decide (i ∉ trainSet)) then .error .assertionError
      else .ok (List.insertionSort (fun a b => a ≤ b) trainSet,
                List.insertionSort (fun a b => a ≤ b) testIndexes)

/-! ## models.py: get_split -/

/-- Python unpacking `key, value = s` of a string: succeeds only when `s` has
exactly two characters (each becoming a 1-character string), otherwise a
ValueError is raised. -/
def strUnpack2 (s : String) : Except PyErr (String × String) :=
  match s.data with
  | [a, b] => .ok (String.mk [a], String.mk [b])
  | _ => .error .valueError

/-- The keys of `locals()` at entry to `get_split` (models.py lines 46-54):
its parameter names, in declaration order. -/
def getSplitLocalKeys : List String :=
  ["data", "functional_group", "which_XANES", "min_fg_occurrence",
   "max_fg_occurrence", "test_size", "random_state"]

/-- models.py line 79: `{key: value for key, value in locals() if key != "data"}`.
Iterating a dict yields its keys, so each parameter-name string is unpacked
into a `(key, value)` pair before the filter is reached. -/
def getSplitLoc : Except PyErr (List (String × String)) :=
  getSplitLocalKeys.foldlM
    (fun acc k => do
      let kv ← strUnpack2 k
      if kv.1 ≠ "data" then pure (acc ++ [kv]) else pure acc)
    []

/-- The data produced by `get_dataset`, as consumed by `get_split`: the
per-modality 2D arrays and the functional-group label mapping. -/
structure Dataset where
  arrays : List (String × List (List ℚ))
  fg : List (String × List Nat)

/-- `data[xx]` on the assembled dataset (KeyError when absent). -/
def lookupArr (d : List (String × List (List ℚ))) (k : String) :
    Except PyErr (List (List ℚ)) :=
  match dlookup d k with
  | some v => .ok v
  | none => .error .keyError

/-- `np.concatenate(blocks, axis=1)`: row-wise concatenation; numpy raises a
ValueError on an empty block list. -/
def concatAxis1 : List (List (List ℚ)) → Except PyErr (List (List ℚ))
  | [] => .error .valueError
  | b :: bs => .ok (bs.foldl (fun acc bb => List.zipWith (fun r1 r2 => r1 ++ r2) acc bb) b)

/-- The value `get_split` is documented to return on an eligible occurrence
fraction: the locals mapping and the four train/test slices. -/
structure GetSplitResult where
  locMap : List (String × String)
  xTrain : List (List ℚ)
  xTest : List (List ℚ)
  yTrain : List Nat
  yTest : List Nat

/-- models.py lines 46-102, `get_split`.  The body in order: the `loc`
comprehension, the feature concatenation over `which_XANES`, the label
lookup, the occurrence-fraction eligibility check (returning `none` on an
ineligible fraction), then `train_test_split` — an external sklearn call
with its hard-coded `test_size=0.10`, modelled through the same seeded
draw as the split cache.  `g` is the ambient generator state.  The
`testSize` parameter is accepted and unused, exactly as in the source. -/
def get_split (g : Nat) (data : Dataset) (functionalGroup : String)
    (whichXANES : List String) (minFgOccurrence maxFgOccurrence : ℚ)
    (testSize : ℚ) (randomState : Nat) : Except PyErr (Option GetSplitResult) := do
  let _ := testSize
  let loc ← getSplitLoc
  let blocks ← whichXANES.mapM (fun xx => lookupArr data.arrays xx)
  let X ← concatAxis1 blocks
  let y ← match dlookup data.fg functionalGroup with
          | some v => Except.ok v
          | none => Except.error PyErr.keyError
  if y.length = 0 then Except.error PyErr.zeroDivisionError
  else
    let pTotal : ℚ := ((y.sum : ℚ) / (y.length : ℚ))
    if ¬ (minFgOccurrence < pTotal ∧ pTotal < maxFgOccurrence) then pure none
    else
      match train_test_indexes g X.length randomState (1 / 10) with
      | .error e => Except.error e
      | .ok (tr, te) =>
          pure (some ⟨loc, tr.map (fun i => X.getD i []), te.map (fun i => X.getD i []),
                      tr.map (fun i => y.getD i 0), te.map (fun i => y.getD i 0)⟩)

/-! ## models.py: experiment runner -/

/-- `Results.__init__` line 246: `",".join(sorted(conditions.split(",")))`. -/
def canonConditions (conditions : String) : String :=
  strJoin "," (sortByLe (fun a b => !(strLtB b a)) (strSplitOn ',' conditions))

/-- run_experiments line 303: `self._conditions.replace(",", "_")`. -/
def base_name (conditions : String) : String :=
  replaceChar ',' '_' (canonConditions conditions)

/-- run_experiments line 311: `base_name.split("_")` — every sorted condition
token, not only the modality tags. -/
def conditions_list (conditions : String) : List String :=
  strSplitOn '_' (base_name conditions)

/-- `_get_xanes_data` lines 171-173: the tokens among the sorted conditions
that contain `"XANES"`; block `i` of the concatenated feature array is the
spectrum of `xanes_keys_avail[i]`. -/
def xanes_keys_avail (conditions : String) : List String :=
  (strSplitOn ',' (canonConditions conditions)).filter (fun cc => containsXANES cc)

/-- run_experiments lines 314-316: the experiment name of a combination —
`"_".join(conditions_list[jj] for jj in combo)`. -/
def current_conditions_name (conditions : String) (combo : List Nat) : String :=
  strJoin "_" (combo.map (fun jj => (conditions_list conditions).getD jj ""))

/-- The run_experiments configuration: the two occurrence bounds, the debug
early-stop threshold, and whether an output directory was given (which is
what decides that models are retained and both stores are persisted). -/
structure RunCfg where
  minFgOccurrence : ℚ
  maxFgOccurrence : ℚ
  debug : ℤ
  saveModels : Bool

/-- Occurrence fraction `y.sum() / len(y)`. -/
def occurrence (y : List Nat) : ℚ := ((y.sum : ℚ) / (y.length : ℚ))

/-- Row slicing `y[indexes]`. -/
def sliceBy (idx : List Nat) (y : List Nat) : List Nat := idx.map (fun i => y.getD i 0)

/-- The experiment record of run_experiments lines 376-390.  The classifier
outputs (accuracies, feature importances) come from the external
RandomForest and are outside the embedding; the deterministic occurrence
fields computed by the source itself are kept. -/
structure PyRec where
  pTotal : ℚ
  pTrain : ℚ
  pTest : ℚ
deriving DecidableEq, Repr

/-- The record written for one eligible (combination, functional-group) pair. -/
def mkRecord (trainIdx testIdx : List Nat) (y : List Nat) : PyRec :=
  ⟨occurrence y, occurrence (sliceBy trainIdx y), occurrence (sliceBy testIdx y)⟩

/-- The inner loop of run_experiments (lines 328-427): enumerate the
functional groups with 0-based index `ii`; skip a group whose occurrence
fraction is not strictly inside the configured bounds; otherwise write the
record under `"{name}-{fg}"`, retain the model under the same key when an
output directory was given, and afterwards break out of the loop when
`debug > 0 and ii >= debug`. -/
def processFG (cfg : RunCfg) (name : String) (trainIdx testIdx : List Nat) :
    Nat → List (String × List Nat) →
    List (String × PyRec) × List (String × Unit) →
    List (String × PyRec) × List (String × Unit)
  | _, [], rm => rm
  | ii, (fgName, y) :: rest, (rep, mods) =>
      let ename := name ++ "-" ++ fgName
      let pTotal := occurrence y
      if cfg.minFgOccurrence < pTotal ∧ pTotal < cfg.maxFgOccurrence then
        let rep' := dictInsert rep ename (mkRecord trainIdx testIdx y)
        let mods' := if cfg.saveModels then dictInsert mods ename () else mods
        if 0 < cfg.debug ∧ cfg.debug ≤ (ii : ℤ) then (rep', mods')
        else processFG cfg name trainIdx testIdx (ii + 1) rest (rep', mods')
      else processFG cfg name trainIdx testIdx (ii + 1) rest (rep, mods)

/-- The outer loop of run_experiments (lines 313-427): one inner pass per
modality combination, each naming its experiments from `conditions_list`. -/
def runCombos (cfg : RunCfg) (condNames : List String) (trainIdx testIdx : List Nat)
    (fgs : List (String × List Nat)) :
    List (List Nat) → List (String × PyRec) × List (String × Unit) →
    List (String × PyRec) × List (String × Unit)
  | [], rm => rm
  | combo :: rest, rm =>
      let name := strJoin "_" (combo.map (fun jj => condNames.getD jj ""))
      runCombos cfg condNames trainIdx testIdx fgs rest
        (processFG cfg name trainIdx testIdx 0 fgs rm)

/-- run_experiments (models.py lines 262-444) at the level the claims speak
about: the report/model mappings produced by the full combination × label
loop.  `fgs` is `data["FG"]` (a Python dict: unique keys, insertion order);
`trainIdx`/`testIdx` abbreviate `self.train_test_indexes`; `report0` is the
object's `_report` at entry; the models mapping starts empty each run.
When an output directory is given the source persists the final `_report`
and the final models mapping as the two stores. -/
def run_experiments (conditions : String) (cfg : RunCfg) (trainIdx testIdx : List Nat)
    (fgs : List (String × List Nat)) (report0 : List (String × PyRec)) :
    List (String × PyRec) × List (String × Unit) :=
  runCombos cfg (conditions_list conditions) trainIdx testIdx fgs
    (get_all_combinations (xanes_keys_avail conditions).length) (report0, [])

/-! ## Shared lemmas about the dictionary operations -/

theorem dlookup_dictInsert_self {α : Type} (d : List (String × α)) (k : String) (v : α) :
    dlookup (dictInsert d k v) k = some v := by
  induction d with
  | nil => simp [dictInsert, dlookup]
  | cons p rest ih =>
      by_cases h : p.1 = k
      · simp [dictInsert, dlookup, h]
      · simp [dictInsert, dlookup, h, ih]

theorem dlookup_dictInsert_ne {α : Type} (d : List (String × α)) {k k' : String} (v : α)
    (h : k ≠ k') : dlookup (dictInsert d k' v) k = dlookup d k := by
  have h' : ¬ (k' = k) := fun hh => h hh.symm
  induction d with
  | nil => simp [dictInsert, dlookup, h']
  | cons p rest ih =>
      by_cases hp : p.1 = k'
      · have hpk : ¬ p.1 = k := by rw [hp]; exact h'
        simp [dictInsert, dlookup, hp, h', hpk]
      · by_cases hk : p.1 = k
        · simp [dictInsert, dlookup, hp, hk, h, h']
        · simp [dictInsert, dlookup, hp, hk, ih]

theorem isSome_dlookup_dictInsert {α : Type} (d : List (String × α)) (k k' : String) (v : α) :
    (dlookup (dictInsert d k' v) k).isSome = true ↔
      k = k' ∨ (dlookup d k).isSome = true := by
  by_cases h : k = k'
  · subst h; simp [dlookup_dictInsert_self]
  · rw [dlookup_dictInsert_ne d v h]
    simp [h]

theorem strAppend_right_inj {a b c : String} (h : a ++ b = a ++ c) : b = c := by
  have hd : (a ++ b).data = (a ++ c).data := by rw [h]
  rw [String.data_append, String.data_append] at hd
  exact String.ext (List.append_cancel_left hd)

/-! ## Claim theorems -/

/-- C10: for every combination of arguments, `get_split` raises a ValueError
before performing any slicing, eligibility check or splitting: its first
statement iterates `locals()` (parameter-name strings) and unpacks each
string into a `(key, value)` pair, which fails on the first key `"data"`,
so the documented return values (a split dictionary, or `none` on an
ineligible occurrence fraction) are unreachable for every input. -/
theorem C10_get_split_always_raises (g : Nat) (data : Dataset)
    (functionalGroup : String) (whichXANES : List String)
    (minFgOccurrence maxFgOccurrence testSize : ℚ) (randomState : Nat) :
    get_split g data functionalGroup whichXANES minFgOccurrence
      maxFgOccurrence testSize randomState = .error .valueError := rfl

/-- C2: the split derivation is a function of the data size, random state and
test fraction alone.  The ambient numpy generator state is overwritten by
`np.random.seed(random_state)` before anything is drawn, so two evaluations
with identical `(N, seed, fraction)` — whatever happened to the generator in
between — produce identical train/test partitions. -/
theorem C2_split_deterministic (g₁ g₂ : Nat) (N seed : Nat) (f : ℚ) :
    train_test_indexes g₁ N seed f = train_test_indexes g₂ N seed f := rfl

/-- C4, the code's actual behaviour at the failing input
`conditions = "C-XANES,!N"`: the only concatenated feature block belongs to
the modality tag `"C-XANES"` (the single entry of `xanes_keys_avail`), yet
the experiment key is built from `conditions_list` — all sorted tokens — so
the recorded key is `"!N-Alcohol"` instead of the `"C-XANES-Alcohol"` that
the naming contract (and the key parsing in `validate`) requires. -/
theorem C4_experiment_key_misnamed :
    (run_experiments "C-XANES,!N" ⟨1/50, 49/50, -1, false⟩ [0] [1]
        [("Alcohol", [0, 1])] []).1.map Prod.fst = ["!N-Alcohol"] ∧
    xanes_keys_avail "C-XANES,!N" = ["C-XANES"] ∧
    current_conditions_name "C-XANES,!N" [0] = "!N" ∧
    ("!N-Alcohol" : String) ≠ "C-XANES-Alcohol" := by
  refine ⟨by with_unfolding_all rfl, rfl, rfl, by decide⟩

/-- C9, the code's actual behaviour at the failing input `debug = 1` with two
eligible labels: the break condition compares the 0-based enumerate index
with `debug` only after an eligible label has been trained and recorded, so
the run processes and records two labels, not the documented one. -/
theorem C9_debug_off_by_one :
    ((processFG ⟨1/50, 49/50, 1, true⟩ "X" [0] [1] 0
        [("A", [0, 1]), ("B", [0, 1])] ([], [])).1).map Prod.fst
      = ["X-A", "X-B"] := by with_unfolding_all rfl

/-- C5 is false as stated: a `Results` object whose report already holds an
entry (here the key `"zzz"`, injected through the public `report`
constructor argument) runs `run_experiments` with an output directory, and
the persisted report keeps that key while the persisted model store — which
starts empty every run — never gains it. -/
theorem C5_counterexample_stale_report_key :
    (dlookup (run_experiments "C-XANES" ⟨1/50, 49/50, -1, true⟩ [0] [1] []
        [("zzz", ⟨0, 0, 0⟩)]).1 "zzz").isSome = true ∧
    (dlookup (run_experiments "C-XANES" ⟨1/50, 49/50, -1, true⟩ [0] [1] []
        [("zzz", ⟨0, 0, 0⟩)]).2 "zzz").isSome = false := by
  exact ⟨by with_unfolding_all rfl, by with_unfolding_all rfl⟩

/-- C7 is false as stated for negated tokens: for the condition expression
`"!N-XANES"` the evaluator appends the token `"!N"`, which carries the
leading `'!'` and therefore filters for the element-presence column equal
to 0 — not a positive token requiring it to equal 1.  On a table whose only
row has `N-XANES = 0` and `N = 1`, the appended token eliminates the row
that a positive coarser-presence token would keep. -/
theorem C7_counterexample_negated_token :
    workingTokens "!N-XANES" = ["!N-XANES", "!N"] ∧
    ("!N" : String).data.head? = some '!' ∧
    applyToken ⟨["N-XANES", "N"], [[0, 1]]⟩ "!N" = some ⟨["N-XANES", "N"], []⟩ ∧
    applyToken ⟨["N-XANES", "N"], [[0, 1]]⟩ "N" = some ⟨["N-XANES", "N"], [[0, 1]]⟩ ∧
    filteredIndex "!N-XANES" ⟨["N-XANES", "N"], [[0, 1]]⟩
      = some ⟨["N-XANES", "N"], []⟩ := by
  refine ⟨by decide, by decide, by decide, by decide, by decide⟩

/-- C7 amended: for every condition token containing `"XANES"`, the evaluator
appends the part of the token before the first `'-'` as one extra working
token, before any filter is applied; when the original token is positive
the appended token is positive (the coarser element-presence flag, filtered
to equal 1), but when the original token is negated the appended token
keeps the leading `'!'` and is itself a negative filter. -/
theorem C7_complementary_token_appended (conditions : String) (tok : String)
    (hmem : tok ∈ strSplitOn ',' conditions) (hx : containsXANES tok = true) :
    ccBase tok ∈ ccConditions (strSplitOn ',' conditions) ∧
    workingTokens conditions
      = strSplitOn ',' conditions ++ ccConditions (strSplitOn ',' conditions) ∧
    (∀ c rest, tok.data = c :: rest → c ≠ '!' → (ccBase tok).data.head? ≠ some '!') ∧
    (∀ rest, tok.data = '!' :: rest → (ccBase tok).data.head? = some '!') := by
  refine ⟨?_, rfl, ?_, ?_⟩
  · exact List.mem_map.2 ⟨tok, List.mem_filter.2 ⟨hmem, hx⟩, rfl⟩
  · intro c rest hdata hc
    simp only [ccBase, hdata]
    by_cases hdash : c = '-'
    · subst hdash
      simp [List.takeWhile]
    · simp [List.takeWhile, hdash]
      exact fun hh => hc hh
  · intro rest hdata
    simp [ccBase, hdata, List.takeWhile]

/-- Hypotheses of the C7 theorem discharged at the concrete expression
`"C-XANES"`: the appended complementary token is the positive `"C"`. -/
theorem C7_complementary_token_appended_witness :
    ("C-XANES" ∈ strSplitOn ',' "C-XANES") ∧ containsXANES "C-XANES" = true ∧
    (ccBase "C-XANES" ∈ ccConditions (strSplitOn ',' "C-XANES") ∧
     workingTokens "C-XANES"
       = strSplitOn ',' "C-XANES" ++ ccConditions (strSplitOn ',' "C-XANES") ∧
     (∀ c rest, ("C-XANES" : String).data = c :: rest → c ≠ '!' →
        (ccBase "C-XANES").data.head? ≠ some '!') ∧
     (∀ rest, ("C-XANES" : String).data = '!' :: rest →
        (ccBase "C-XANES").data.head? = some '!')) :=
  ⟨by decide, by decide,
   C7_complementary_token_appended "C-XANES" "C-XANES" (by decide) (by decide)⟩

theorem mem_drop_range {m n j : Nat} : j ∈ (List.range n).drop m ↔ m ≤ j ∧ j < n := by
  constructor
  · intro h
    obtain ⟨i, hi, hEq⟩ := List.mem_iff_getElem.1 h
    rw [List.getElem_drop, List.getElem_range] at hEq
    simp only [List.length_drop, List.length_range] at hi
    omega
  · intro hj
    refine List.mem_iff_getElem.2 ⟨j - m, ?_, ?_⟩
    · simp only [List.length_drop, List.length_range]; omega
    · rw [List.getElem_drop, List.getElem_range]; omega

theorem mem_buildFG_iff (t : Table) (c : String) (v : List Nat) :
    (c, v) ∈ buildFG t ↔ ∃ j, 7 ≤ j ∧ j < t.cols.length ∧ c = t.cols.getD j "" ∧
      v = colValues t j ∧ 0 < v.sum := by
  simp only [buildFG, List.mem_filterMap]
  constructor
  · rintro ⟨j, hj, hEq⟩
    rw [mem_drop_range] at hj
    by_cases hs : 0 < (colValues t j).sum
    · rw [if_pos hs] at hEq
      obtain ⟨hc, hv⟩ := Prod.mk.injEq .. ▸ Option.some.inj hEq
      exact ⟨j, hj.1, hj.2, hc.symm, hv.symm, hv ▸ hs⟩
    · rw [if_neg hs] at hEq
      cases hEq
  · rintro ⟨j, h7, hj, rfl, rfl, hs⟩
    exact ⟨j, mem_drop_range.2 ⟨h7, hj⟩, by rw [if_pos hs]⟩

/-- C8: for a table with distinct column names, the assembled dataset's
functional-group mapping contains the column at position `j ≥ 7` exactly
when its sum over the selected rows is nonzero: an all-zero column never
appears under its name, and a column with at least one 1 appears under its
name with its full row-aligned value array (and nothing else appears under
that name). -/
theorem C8_fg_column_filtering (t : Table) (hnd : t.cols.Nodup) (j : Nat)
    (h7 : 7 ≤ j) (hj : j < t.cols.length) :
    (0 < (colValues t j).sum →
        (t.cols.getD j "", colValues t j) ∈ buildFG t) ∧
    ((colValues t j).sum = 0 → ∀ v, (t.cols.getD j "", v) ∉ buildFG t) ∧
    (∀ v, (t.cols.getD j "", v) ∈ buildFG t → v = colValues t j) ∧
    (colValues t j).length = t.rows.length := by
  have key : ∀ j', 7 ≤ j' → j' < t.cols.length →
      t.cols.getD j "" = t.cols.getD j' "" → j = j' := by
    intro j' _ hj' h1
    rw [List.getD_eq_getElem _ _ hj, List.getD_eq_getElem _ _ hj'] at h1
    exact (hnd.getElem_inj_iff).1 h1
  refine ⟨?_, ?_, ?_, by simp [colValues]⟩
  · intro hs
    exact (mem_buildFG_iff t _ _).2 ⟨j, h7, hj, rfl, rfl, hs⟩
  · intro hzero v hmem
    obtain ⟨j', h7', hj', hc, hv, hs⟩ := (mem_buildFG_iff t _ v).1 hmem
    have hjj : j = j' := key j' h7' hj' hc
    subst hjj
    rw [hv] at hs
    omega
  · intro v hmem
    obtain ⟨j', h7', hj', hc, hv, hs⟩ := (mem_buildFG_iff t _ v).1 hmem
    have hjj : j = j' := key j' h7' hj' hc
    subst hjj
    exact hv

/-- Hypotheses of the C8 theorem discharged at a concrete one-row table whose
column 7 holds a single 1. -/
theorem C8_fg_column_filtering_witness :
    (["s", "c1", "c2", "c3", "c4", "c5", "c6", "FG1"] : List String).Nodup ∧
    ((0 < (colValues ⟨["s", "c1", "c2", "c3", "c4", "c5", "c6", "FG1"],
        [[0, 0, 0, 0, 0, 0, 0, 1]]⟩ 7).sum →
      ((["s", "c1", "c2", "c3", "c4", "c5", "c6", "FG1"] : List String).getD 7 "",
        colValues ⟨["s", "c1", "c2", "c3", "c4", "c5", "c6", "FG1"],
          [[0, 0, 0, 0, 0, 0, 0, 1]]⟩ 7) ∈
        buildFG ⟨["s", "c1", "c2", "c3", "c4", "c5", "c6", "FG1"],
          [[0, 0, 0, 0, 0, 0, 0, 1]]⟩) ∧
     ((colValues ⟨["s", "c1", "c2", "c3", "c4", "c5", "c6", "FG1"],
        [[0, 0, 0, 0, 0, 0, 0, 1]]⟩ 7).sum = 0 → ∀ v,
      ((["s", "c1", "c2", "c3", "c4", "c5", "c6", "FG1"] : List String).getD 7 "", v) ∉
        buildFG ⟨["s", "c1", "c2", "c3", "c4", "c5", "c6", "FG1"],
          [[0, 0, 0, 0, 0, 0, 0, 1]]⟩) ∧
     (∀ v, ((["s", "c1", "c2", "c3", "c4", "c5", "c6", "FG1"] : List String).getD 7 "", v) ∈
        buildFG ⟨["s", "c1", "c2", "c3", "c4", "c5", "c6", "FG1"],
          [[0, 0, 0, 0, 0, 0, 0, 1]]⟩ →
        v = colValues ⟨["s", "c1", "c2", "c3", "c4", "c5", "c6", "FG1"],
          [[0, 0, 0, 0, 0, 0, 0, 1]]⟩ 7) ∧
     (colValues ⟨["s", "c1", "c2", "c3", "c4", "c5", "c6", "FG1"],
        [[0, 0, 0, 0, 0, 0, 0, 1]]⟩ 7).length =
       ([[0, 0, 0, 0, 0, 0, 0, 1]] : List (List Nat)).length) :=
  ⟨by decide,
   C8_fg_column_filtering ⟨["s", "c1", "c2", "c3", "c4", "c5", "c6", "FG1"],
     [[0, 0, 0, 0, 0, 0, 0, 1]]⟩ (by decide) 7 (by decide) (by decide)⟩

theorem dlookup_processFG_ne (cfg : RunCfg) (name : String) (tr te : List Nat)
    (key : String) :
    ∀ (fgs : List (String × List Nat)) (ii : Nat) (rep : List (String × PyRec))
      (mods : List (String × Unit)),
      (∀ p ∈ fgs, name ++ "-" ++ p.1 ≠ key) →
      dlookup (processFG cfg name tr te ii fgs (rep, mods)).1 key = dlookup rep key := by
  intro fgs
  induction fgs with
  | nil => intro ii rep mods _; simp [processFG]
  | cons p rest ih =>
      intro ii rep mods h
      obtain ⟨fgName, y⟩ := p
      have hne : key ≠ name ++ "-" ++ fgName :=
        fun hh => h _ (List.mem_cons_self _ _) hh.symm
      have hrest : ∀ q ∈ rest, name ++ "-" ++ q.1 ≠ key :=
        fun q hq => h q (List.mem_cons_of_mem _ hq)
      by_cases helig : cfg.minFgOccurrence < occurrence y ∧ occurrence y < cfg.maxFgOccurrence
      · by_cases hbrk : 0 < cfg.debug ∧ cfg.debug ≤ (ii : ℤ)
        · simp only [processFG, if_pos helig, if_pos hbrk]
          exact dlookup_dictInsert_ne rep _ hne
        · simp only [processFG, if_pos helig, if_neg hbrk]
          rw [ih (ii + 1) _ _ hrest]
          exact dlookup_dictInsert_ne rep _ hne
      · simp only [processFG, if_neg helig]
        exact ih (ii + 1) rep mods hrest

theorem processFG_record_iff_aux (cfg : RunCfg) (hdbg : cfg.debug ≤ 0)
    (name : String) (tr te : List Nat) :
    ∀ (fgs : List (String × List Nat)), (fgs.map Prod.fst).Nodup →
      ∀ (fg : String) (y : List Nat), (fg, y) ∈ fgs →
      ∀ (ii : Nat) (rep : List (String × PyRec)) (mods : List (String × Unit)),
      (cfg.minFgOccurrence < occurrence y ∧ occurrence y < cfg.maxFgOccurrence →
          dlookup (processFG cfg name tr te ii fgs (rep, mods)).1 (name ++ "-" ++ fg)
            = some (mkRecord tr te y)) ∧
      (¬ (cfg.minFgOccurrence < occurrence y ∧ occurrence y < cfg.maxFgOccurrence) →
          dlookup (processFG cfg name tr te ii fgs (rep, mods)).1 (name ++ "-" ++ fg)
            = dlookup rep (name ++ "-" ++ fg)) := by
  intro fgs
  induction fgs with
  | nil => intro _ fg y hmem; cases hmem
  | cons p rest ih =>
      intro hnd fg y hmem ii rep mods
      obtain ⟨fgName, y₂⟩ := p
      have hbrk : ¬ (0 < cfg.debug ∧ cfg.debug ≤ (ii : ℤ)) := by omega
      rcases List.mem_cons.1 hmem with heq | hrestmem
      · obtain ⟨h1, h2⟩ := Prod.mk.injEq .. ▸ heq
        subst h1; subst h2
        have hfg : fg ∉ rest.map Prod.fst := (List.nodup_cons.1 hnd).1
        have hrestne : ∀ q ∈ rest, name ++ "-" ++ q.1 ≠ name ++ "-" ++ fg := by
          intro q hq hh
          exact hfg (strAppend_right_inj hh ▸ List.mem_map_of_mem Prod.fst hq)
        constructor
        · intro helig
          simp only [processFG, if_pos helig, if_neg hbrk]
          rw [dlookup_processFG_ne cfg name tr te _ rest (ii + 1) _ _ hrestne]
          exact dlookup_dictInsert_self rep _ _
        · intro helig
          simp only [processFG, if_neg helig]
          exact dlookup_processFG_ne cfg name tr te _ rest (ii + 1) _ _ hrestne
      · have hfgrest : fg ∈ rest.map Prod.fst := List.mem_map_of_mem Prod.fst hrestmem
        have hfgne : name ++ "-" ++ fg ≠ name ++ "-" ++ fgName := by
          intro hh
          exact (List.nodup_cons.1 hnd).1 (strAppend_right_inj hh ▸ hfgrest)
        have ihr := ih (List.nodup_cons.1 hnd).2 fg y hrestmem
        by_cases helig₂ : cfg.minFgOccurrence < occurrence y₂ ∧ occurrence y₂ < cfg.maxFgOccurrence
        · simp only [processFG, if_pos helig₂, if_neg hbrk]
          constructor
          · exact fun h => (ihr (ii + 1) _ _).1 h
          · intro h
            rw [(ihr (ii + 1) _ _).2 h]
            exact dlookup_dictInsert_ne rep _ hfgne
        · simp only [processFG, if_neg helig₂]
          exact ihr (ii + 1) rep mods

/-- C6: in a run without the debug early stop, a (combination, functional
group) pair is recorded if and only if its occurrence fraction
`p_total = sum(labels)/N` lies strictly between the configured bounds: when
it is strictly inside, the record for the pair's key is written; when it
equals either bound or lies outside, the pair is skipped without error —
the report's entry under that key (and every previously recorded entry) is
exactly what it was before the run reached the pair. -/
theorem C6_occurrence_eligibility (cfg : RunCfg) (hdbg : cfg.debug ≤ 0)
    (name : String) (tr te : List Nat) (fgs : List (String × List Nat))
    (hnd : (fgs.map Prod.fst).Nodup) (fg : String) (y : List Nat)
    (hmem : (fg, y) ∈ fgs) (rep : List (String × PyRec))
    (mods : List (String × Unit)) :
    (cfg.minFgOccurrence < occurrence y ∧ occurrence y < cfg.maxFgOccurrence →
        dlookup (processFG cfg name tr te 0 fgs (rep, mods)).1 (name ++ "-" ++ fg)
          = some (mkRecord tr te y)) ∧
    ((occurrence y = cfg.minFgOccurrence ∨ occurrence y = cfg.maxFgOccurrence ∨
        ¬ (cfg.minFgOccurrence < occurrence y ∧ occurrence y < cfg.maxFgOccurrence)) →
        dlookup (processFG cfg name tr te 0 fgs (rep, mods)).1 (name ++ "-" ++ fg)
          = dlookup rep (name ++ "-" ++ fg)) := by
  have h := processFG_record_iff_aux cfg hdbg name tr te fgs hnd fg y hmem 0 rep mods
  refine ⟨h.1, ?_⟩
  intro hcase
  apply h.2
  rcases hcase with hmin | hmax | hout
  · rw [hmin]; exact fun hh => lt_irrefl _ hh.1
  · rw [hmax]; exact fun hh => lt_irrefl _ hh.2
  · exact hout

/-- Hypotheses of the C6 theorem discharged at a concrete run: two functional
groups, `"A"` eligible with occurrence 1/2 and recorded, checked at the
default bounds 0.02 and 0.98 with the debug stop disabled. -/
theorem C6_occurrence_eligibility_witness :
    ((-1 : ℤ) ≤ 0) ∧
    ((([("A", [0, 1]), ("B", [1, 1])] : List (String × List Nat)).map Prod.fst).Nodup) ∧
    (((1 : ℚ)/50 < occurrence [0, 1] ∧ occurrence [0, 1] < 49/50 →
        dlookup (processFG ⟨1/50, 49/50, -1, true⟩ "X" [0] [1] 0
            [("A", [0, 1]), ("B", [1, 1])] ([], [])).1 ("X" ++ "-" ++ "A")
          = some (mkRecord [0] [1] [0, 1])) ∧
     ((occurrence [0, 1] = (1 : ℚ)/50 ∨ occurrence [0, 1] = (49 : ℚ)/50 ∨
        ¬ ((1 : ℚ)/50 < occurrence [0, 1] ∧ occurrence [0, 1] < 49/50)) →
        dlookup (processFG ⟨1/50, 49/50, -1, true⟩ "X" [0] [1] 0
            [("A", [0, 1]), ("B", [1, 1])] ([], [])).1 ("X" ++ "-" ++ "A")
          = dlookup [] ("X" ++ "-" ++ "A"))) :=
  ⟨by decide, by decide,
   C6_occurrence_eligibility ⟨1/50, 49/50, -1, true⟩ (by decide) "X" [0] [1]
     [("A", [0, 1]), ("B", [1, 1])] (by decide) "A" [0, 1] (by decide) [] []⟩

theorem processFG_keys_aligned (cfg : RunCfg) (hout : cfg.saveModels = true)
    (name : String) (tr te : List Nat) :
    ∀ (fgs : List (String × List Nat)) (ii : Nat) (rep : List (String × PyRec))
      (mods : List (String × Unit)),
      (∀ k, (dlookup rep k).isSome = true ↔ (dlookup mods k).isSome = true) →
      ∀ k, (dlookup (processFG cfg name tr te ii fgs (rep, mods)).1 k).isSome = true ↔
           (dlookup (processFG cfg name tr te ii fgs (rep, mods)).2 k).isSome = true := by
  intro fgs
  induction fgs with
  | nil => intro ii rep mods h k; simpa [processFG] using h k
  | cons p rest ih =>
      intro ii rep mods h k
      obtain ⟨fgName, y⟩ := p
      have haligned : ∀ k',
          (dlookup (dictInsert rep (name ++ "-" ++ fgName) (mkRecord tr te y)) k').isSome = true ↔
          (dlookup (dictInsert mods (name ++ "-" ++ fgName) ()) k').isSome = true := by
        intro k'
        rw [isSome_dlookup_dictInsert, isSome_dlookup_dictInsert]
        exact or_congr Iff.rfl (h k')
      by_cases helig : cfg.minFgOccurrence < occurrence y ∧ occurrence y < cfg.maxFgOccurrence
      · by_cases hbrk : 0 < cfg.debug ∧ cfg.debug ≤ (ii : ℤ)
        · simp only [processFG, if_pos helig, if_pos hbrk, hout, if_true]
          exact haligned k
        · simp only [processFG, if_pos helig, if_neg hbrk, hout, if_true]
          exact ih (ii + 1) _ _ haligned k
      · simp only [processFG, if_neg helig]
        exact ih (ii + 1) rep mods h k

theorem runCombos_keys_aligned (cfg : RunCfg) (hout : cfg.saveModels = true)
    (condNames : List String) (tr te : List Nat) (fgs : List (String × List Nat)) :
    ∀ (combos : List (List Nat)) (rep : List (String × PyRec))
      (mods : List (String × Unit)),
      (∀ k, (dlookup rep k).isSome = true ↔ (dlookup mods k).isSome = true) →
      ∀ k, (dlookup (runCombos cfg condNames tr te fgs combos (rep, mods)).1 k).isSome = true ↔
           (dlookup (runCombos cfg condNames tr te fgs combos (rep, mods)).2 k).isSome = true := by
  intro combos
  induction combos with
  | nil => intro rep mods h k; simpa [runCombos] using h k
  | cons combo rest ih =>
      intro rep mods h k
      simp only [runCombos]
      have hstep := processFG_keys_aligned cfg hout
        (strJoin "_" (combo.map (fun jj => condNames.getD jj ""))) tr te fgs 0 rep mods h
      obtain ⟨rep₁, mods₁, heq⟩ :
          ∃ r m, processFG cfg (strJoin "_" (combo.map (fun jj => condNames.getD jj "")))
            tr te 0 fgs (rep, mods) = (r, m) := ⟨_, _, rfl⟩
      rw [heq] at hstep ⊢
      exact ih _ _ hstep k

/-- C5 amended: when `run_experiments` is given an output directory and the
run starts from an empty report (the default construction), the persisted
model store and the persisted report have exactly the same keys — every key
of either mapping is a key of the other.  (The unamended claim fails when
the report already holds entries at entry to the run; see the
counterexample.) -/
theorem C5_model_store_keys_match_report (conditions : String) (cfg : RunCfg)
    (hout : cfg.saveModels = true) (tr te : List Nat)
    (fgs : List (String × List Nat)) (k : String) :
    (dlookup (run_experiments conditions cfg tr te fgs []).1 k).isSome = true ↔
    (dlookup (run_experiments conditions cfg tr te fgs []).2 k).isSome = true := by
  exact runCombos_keys_aligned cfg hout (conditions_list conditions) tr te fgs
    (get_all_combinations (xanes_keys_avail conditions).length) [] []
    (fun _ => by simp [dlookup]) k

/-- Hypotheses of the C5 theorem discharged at a concrete run over one
modality and one eligible functional group, checked at the recorded key. -/
theorem C5_model_store_keys_match_report_witness :
    ((⟨1/50, 49/50, -1, true⟩ : RunCfg).saveModels = true) ∧
    ((dlookup (run_experiments "C-XANES" ⟨1/50, 49/50, -1, true⟩ [0] [1]
        [("A", [0, 1])] []).1 "C-XANES-A").isSome = true ↔
     (dlookup (run_experiments "C-XANES" ⟨1/50, 49/50, -1, true⟩ [0] [1]
        [("A", [0, 1])] []).2 "C-XANES-A").isSome = true) :=
  ⟨rfl, C5_model_store_keys_match_report "C-XANES" ⟨1/50, 49/50, -1, true⟩ rfl
    [0] [1] [("A", [0, 1])] "C-XANES-A"⟩

theorem mem_combosOfLen {α : Type} :
    ∀ (l : List α) (k : Nat) (c : List α),
      c ∈ combosOfLen k l ↔ c.length = k ∧ c.Sublist l := by
  intro l
  induction l with
  | nil =>
      intro k c
      cases k with
      | zero =>
          constructor
          · intro h
            simp only [combosOfLen, List.mem_singleton] at h
            subst h
            exact ⟨rfl, List.nil_sublist _⟩
          · rintro ⟨hl, hs⟩
            have : c = [] := List.sublist_nil.1 hs
            subst this
            simp [combosOfLen]
      | succ k =>
          constructor
          · intro h
            simp [combosOfLen] at h
          · rintro ⟨hl, hs⟩
            have : c = [] := List.sublist_nil.1 hs
            subst this
            simp at hl
  | cons x xs ih =>
      intro k c
      cases k with
      | zero =>
          constructor
          · intro h
            simp only [combosOfLen, List.mem_singleton] at h
            subst h
            exact ⟨rfl, List.nil_sublist _⟩
          · rintro ⟨hl, hs⟩
            have : c = [] := List.length_eq_zero.1 hl
            subst this
            simp [combosOfLen]
      | succ k =>
          simp only [combosOfLen, List.mem_append, List.mem_map]
          constructor
          · rintro (⟨c', hc', rfl⟩ | h)
            · obtain ⟨hl, hs⟩ := (ih k c').1 hc'
              exact ⟨by simp [hl], List.cons_sublist_cons.2 hs⟩
            · obtain ⟨hl, hs⟩ := (ih (k + 1) c).1 h
              exact ⟨hl, hs.trans (List.sublist_cons_self x xs)⟩
          · rintro ⟨hl, hs⟩
            rcases List.sublist_cons_iff.1 hs with h | ⟨r, rfl, hr⟩
            · exact Or.inr ((ih (k + 1) c).2 ⟨hl, h⟩)
            · refine Or.inl ⟨r, (ih k r).2 ⟨?_, hr⟩, rfl⟩
              simpa using hl

theorem pairwise_lex_combosOfLen :
    ∀ (l : List Nat), l.Pairwise (· < ·) →
      ∀ k, (combosOfLen k l).Pairwise (List.Lex (· < ·)) := by
  intro l
  induction l with
  | nil =>
      intro _ k
      cases k with
      | zero => simp [combosOfLen]
      | succ k => simp [combosOfLen]
  | cons x xs ih =>
      intro hp k
      obtain ⟨hx, hxs⟩ := List.pairwise_cons.1 hp
      cases k with
      | zero => simp [combosOfLen]
      | succ k =>
          simp only [combosOfLen]
          rw [List.pairwise_append]
          refine ⟨?_, ih hxs (k + 1), ?_⟩
          · rw [List.pairwise_map]
            exact (ih hxs k).imp (fun h => List.Lex.cons h)
          · rintro a ha b hb
            obtain ⟨c', hc', rfl⟩ := List.mem_map.1 ha
            obtain ⟨hl, hs⟩ := (mem_combosOfLen xs (k + 1) b).1 hb
            cases b with
            | nil => simp at hl
            | cons y b' =>
                have hy : y ∈ xs := hs.subset (List.mem_cons_self y b')
                exact List.Lex.rel (hx y hy)

/-- C3: `get_all_combinations n` returns exactly the non-empty combinations of
positions `0..n-1` (the non-empty subsequences of `range n`, hence of every
size 1..n), each exactly once, ordered first by combination length
ascending and then lexicographically by position tuple within each length;
in particular on `n = 3` it returns exactly the seven tuples
`(0,), (1,), (2,), (0,1), (0,2), (1,2), (0,1,2)` in that order. -/
theorem C3_combination_enumerator :
    (∀ (n : Nat) (c : List Nat),
        c ∈ get_all_combinations n ↔ c ≠ [] ∧ c.Sublist (List.range n)) ∧
    (∀ n : Nat, (get_all_combinations n).Pairwise comboOrder) ∧
    (∀ n : Nat, (get_all_combinations n).Nodup) ∧
    get_all_combinations 3 = [[0], [1], [2], [0, 1], [0, 2], [1, 2], [0, 1, 2]] := by
  have hmem : ∀ (n : Nat) (c : List Nat),
      c ∈ get_all_combinations n ↔ c ≠ [] ∧ c.Sublist (List.range n) := by
    intro n c
    simp only [get_all_combinations, List.mem_flatten, List.mem_map]
    constructor
    · rintro ⟨L, ⟨nn, hnn, rfl⟩, hc⟩
      obtain ⟨hl, hs⟩ := (mem_combosOfLen _ _ _).1 hc
      refine ⟨?_, hs⟩
      intro hnil
      subst hnil
      simp at hl
    · rintro ⟨hne, hs⟩
      have hlen : 1 ≤ c.length := by
        cases c with
        | nil => exact absurd rfl hne
        | cons _ _ => simp
      have hle : c.length ≤ n := by simpa using hs.length_le
      refine ⟨combosOfLen (c.length - 1 + 1) (List.range n),
        ⟨c.length - 1, ?_, rfl⟩, ?_⟩
      · rw [List.mem_range]; omega
      · exact (mem_combosOfLen _ _ _).2 ⟨by omega, hs⟩
  have hpair : ∀ n : Nat, (get_all_combinations n).Pairwise comboOrder := by
    intro n
    rw [get_all_combinations, List.pairwise_flatten]
    constructor
    · rintro L hL
      obtain ⟨nn, hnn, rfl⟩ := List.mem_map.1 hL
      apply List.Pairwise.imp_of_mem ?_
        (pairwise_lex_combosOfLen (List.range n) (List.pairwise_lt_range n) (nn + 1))
      intro a b ha hb hlex
      have hla := ((mem_combosOfLen _ _ _).1 ha).1
      have hlb := ((mem_combosOfLen _ _ _).1 hb).1
      exact Or.inr ⟨by rw [hla, hlb], hlex⟩
    · rw [List.pairwise_map]
      refine (List.pairwise_lt_range n).imp ?_
      intro nn mm hlt x hx y hy
      have hlx := ((mem_combosOfLen _ _ _).1 hx).1
      have hly := ((mem_combosOfLen _ _ _).1 hy).1
      exact Or.inl (by rw [hlx, hly]; omega)
  have hnodup : ∀ n : Nat, (get_all_combinations n).Nodup := by
    intro n
    refine (hpair n).imp ?_
    intro a b hab heq
    subst heq
    rcases hab with h | ⟨_, h⟩
    · exact lt_irrefl _ h
    · exact (IsIrrefl.irrefl a : ¬ _) h
  exact ⟨hmem, hpair, hnodup, by decide⟩

theorem drawGo_spec :
    ∀ (k : Nat) (pool : List Nat) (s : Nat), pool.Nodup → k ≤ pool.length →
      (drawGo k pool s).length = k ∧ (drawGo k pool s).Nodup ∧
      ∀ x ∈ drawGo k pool s, x ∈ pool := by
  intro k
  induction k with
  | zero =>
      intro pool s _ _
      refine ⟨rfl, List.nodup_nil, ?_⟩
      intro x hx
      simp [drawGo] at hx
  | succ k ih =>
      intro pool s hnd hk
      cases pool with
      | nil => exact absurd hk (by simp)
      | cons p ps =>
          have hunf : drawGo (k + 1) (p :: ps) s
              = (p :: ps).getD (lcg s % (p :: ps).length) 0 ::
                drawGo k ((p :: ps).eraseIdx (lcg s % (p :: ps).length)) (lcg s) := rfl
          have hidx : lcg s % (p :: ps).length < (p :: ps).length :=
            Nat.mod_lt _ (Nat.succ_pos _)
          have hget : (p :: ps).getD (lcg s % (p :: ps).length) 0
              = (p :: ps)[lcg s % (p :: ps).length] := List.getD_eq_getElem _ _ hidx
          have herlen : ((p :: ps).eraseIdx (lcg s % (p :: ps).length)).length
              = (p :: ps).length - 1 := List.length_eraseIdx_of_lt hidx
          have hernd : ((p :: ps).eraseIdx (lcg s % (p :: ps).length)).Nodup :=
            (List.eraseIdx_sublist _ _).nodup hnd
          have hk' : k ≤ ((p :: ps).eraseIdx (lcg s % (p :: ps).length)).length := by
            rw [herlen]
            simp only [List.length_cons] at hk ⊢
            omega
          obtain ⟨ihl, ihnd, ihmem⟩ := ih _ (lcg s) hernd hk'
          have hxnot : (p :: ps)[lcg s % (p :: ps).length] ∉
              (p :: ps).eraseIdx (lcg s % (p :: ps).length) := by
            intro hmem
            obtain ⟨j, hj, hne', hEq⟩ := List.mem_eraseIdx_iff_getElem.1 hmem
            exact hne' ((hnd.getElem_inj_iff).1 hEq)
          refine ⟨?_, ?_, ?_⟩
          · rw [hunf, List.length_cons, ihl]
          · rw [hunf, hget, List.nodup_cons]
            exact ⟨fun hmem => hxnot (ihmem _ hmem), ihnd⟩
          · intro x hx
            rcases List.mem_cons.1 (hunf ▸ hx) with h | h
            · rw [h, hget]
              exact List.getElem_mem hidx
            · exact (List.eraseIdx_sublist _ _).subset (ihmem x h)

theorem npChoice_spec (s N size : Nat) (h : size ≤ N) :
    (npChoiceNoReplace s N size).length = size ∧ (npChoiceNoReplace s N size).Nodup ∧
    ∀ x ∈ npChoiceNoReplace s N size, x < N := by
  obtain ⟨h1, h2, h3⟩ := drawGo_spec size (List.range N) s (List.nodup_range N)
    (by simpa using h)
  exact ⟨h1, h2, fun x hx => List.mem_range.1 (h3 x hx)⟩

/-- C1: for every data size, seed, and test fraction `f` with `0 ≤ f ≤ 1`,
the split derivation returns (rather than erring) a pair of index lists
whose test part has `⌊f · N⌋` elements with no duplicates, whose train part
is exactly the complement of the test part inside `[0, N)`, the two parts
are disjoint, their union is exactly `[0, N)`, and both come back sorted
ascending. -/
theorem C1_split_partition (g N seed : Nat) (f : ℚ) (h0 : 0 ≤ f) (h1 : f ≤ 1) :
    ∃ train test, train_test_indexes g N seed f = .ok (train, test) ∧
      test.length = (⌊f * (N : ℚ)⌋).toNat ∧
      test.Nodup ∧
      (∀ i, i ∈ train ↔ (i < N ∧ i ∉ test)) ∧
      (∀ i, ¬ (i ∈ train ∧ i ∈ test)) ∧
      (∀ i, (i ∈ train ∨ i ∈ test) ↔ i < N) ∧
      List.Sorted (· ≤ ·) train ∧ List.Sorted (· ≤ ·) test := by
  have hfN0 : 0 ≤ f * (N : ℚ) := mul_nonneg h0 (Nat.cast_nonneg N)
  have hpy : pyInt (f * (N : ℚ)) = ⌊f * (N : ℚ)⌋ := by
    simp only [pyInt]
    rw [if_neg (not_lt.2 hfN0)]
  have hfl0 : 0 ≤ ⌊f * (N : ℚ)⌋ := Int.floor_nonneg.2 hfN0
  have hflN : ⌊f * (N : ℚ)⌋ ≤ (N : ℤ) := by
    have hle : f * (N : ℚ) ≤ (N : ℚ) := by nlinarith [Nat.cast_nonneg (α := ℚ) N]
    calc ⌊f * (N : ℚ)⌋ ≤ ⌊(N : ℚ)⌋ := Int.floor_le_floor hle
      _ = (N : ℤ) := Int.floor_natCast N
  have hsize : (pyInt (f * (N : ℚ))).toNat ≤ N := by
    rw [hpy]
    exact Int.toNat_le.2 hflN
  obtain ⟨hdl, hdnd, hdlt⟩ := npChoice_spec seed N (pyInt (f * (N : ℚ))).toNat hsize
  have hguard2 : (npChoiceNoReplace seed N (pyInt (f * (N : ℚ))).toNat).all
      (fun i => decide (i ∉ (List.range N).filter
        (fun i => decide (i ∉ npChoiceNoReplace seed N (pyInt (f * (N : ℚ))).toNat)))) = true := by
    rw [List.all_eq_true]
    intro x hx
    rw [decide_eq_true_eq]
    intro hxtr
    have hnot := (List.mem_filter.1 hxtr).2
    rw [decide_eq_true_eq] at hnot
    exact hnot hx
  have heq : train_test_indexes g N seed f
      = .ok (List.insertionSort (fun a b => a ≤ b)
               ((List.range N).filter
                 (fun i => decide (i ∉ npChoiceNoReplace seed N (pyInt (f * (N : ℚ))).toNat))),
             List.insertionSort (fun a b => a ≤ b)
               (npChoiceNoReplace seed N (pyInt (f * (N : ℚ))).toNat)) := by
    simp only [train_test_indexes]
    rw [if_neg (by rw [hpy]; exact not_lt.2 hfl0),
        if_neg (by rw [hpy]; exact not_lt.2 hflN),
        if_neg (not_not_intro hdnd),
        if_neg (not_not_intro hguard2)]
  have hperm_tr := List.perm_insertionSort (fun a b => a ≤ b)
    ((List.range N).filter
      (fun i => decide (i ∉ npChoiceNoReplace seed N (pyInt (f * (N : ℚ))).toNat)))
  have hperm_te := List.perm_insertionSort (fun a b => a ≤ b)
    (npChoiceNoReplace seed N (pyInt (f * (N : ℚ))).toNat)
  have hmem_tr : ∀ i, i ∈ List.insertionSort (fun a b => a ≤ b)
      ((List.range N).filter
        (fun i => decide (i ∉ npChoiceNoReplace seed N (pyInt (f * (N : ℚ))).toNat))) ↔
      (i < N ∧ i ∉ npChoiceNoReplace seed N (pyInt (f * (N : ℚ))).toNat) := by
    intro i
    rw [hperm_tr.mem_iff, List.mem_filter, List.mem_range, decide_eq_true_eq]
  have hmem_te : ∀ i, i ∈ List.insertionSort (fun a b => a ≤ b)
      (npChoiceNoReplace seed N (pyInt (f * (N : ℚ))).toNat) ↔
      i ∈ npChoiceNoReplace seed N (pyInt (f * (N : ℚ))).toNat := fun i => hperm_te.mem_iff
  refine ⟨_, _, heq, ?_, ?_, ?_, ?_, ?_, ?_, ?_⟩
  · rw [hperm_te.length_eq, hdl, hpy]
  · exact (hperm_te.nodup_iff).2 hdnd
  · intro i
    rw [hmem_tr i]
    constructor
    · rintro ⟨hiN, hnot⟩
      exact ⟨hiN, fun hmem => hnot ((hmem_te i).1 hmem)⟩
    · rintro ⟨hiN, hnot⟩
      exact ⟨hiN, fun hmem => hnot ((hmem_te i).2 hmem)⟩
  · rintro i ⟨htr, hte⟩
    exact ((hmem_tr i).1 htr).2 ((hmem_te i).1 hte)
  · intro i
    constructor
    · rintro (htr | hte)
      · exact ((hmem_tr i).1 htr).1
      · exact hdlt i ((hmem_te i).1 hte)
    · intro hiN
      by_cases hit : i ∈ npChoiceNoReplace seed N (pyInt (f * (N : ℚ))).toNat
      · exact Or.inr ((hmem_te i).2 hit)
      · exact Or.inl ((hmem_tr i).2 ⟨hiN, hit⟩)
  · exact List.sorted_insertionSort (fun a b => a ≤ b) _
  · exact List.sorted_insertionSort (fun a b => a ≤ b) _

/-- Hypotheses of the C1 theorem discharged at the concrete input
`N = 10, seed = 5, f = 1/10` (with ambient generator state 0). -/
theorem C1_split_partition_witness :
    (0 : ℚ) ≤ 1/10 ∧ (1 : ℚ)/10 ≤ 1 ∧
    (∃ train test, train_test_indexes 0 10 5 (1/10) = .ok (train, test) ∧
      test.length = (⌊(1 : ℚ)/10 * ((10 : Nat) : ℚ)⌋).toNat ∧
      test.Nodup ∧
      (∀ i, i ∈ train ↔ (i < 10 ∧ i ∉ test)) ∧
      (∀ i, ¬ (i ∈ train ∧ i ∈ test)) ∧
      (∀ i, (i ∈ train ∨ i ∈ test) ↔ i < 10) ∧
      List.Sorted (· ≤ ·) train ∧ List.Sorted (· ≤ ·) test) :=
  ⟨by norm_num, by norm_num, C1_split_partition 0 10 5 (1/10) (by norm_num) (by norm_num)⟩
